import Mathlib

/-!
Shallow embedding of the MCTS chess-move-suggestion engine
(`Algoritmos Codigos/game_playing/import chess.py`).

The engine is game-generic in spirit: per the specification, the rules
engine (python-chess) is an external GameState collaborator supplying
legal-move enumeration, move application, terminal detection, result
classification and side-to-move.  We embed that capability bundle as a
`Game` structure; the chess evaluator `evaluate_board` is embedded
separately over a concrete board model.

Python board objects are mutable references: `board.copy()` allocates a
fresh object and `board.push(move)` mutates in place.  We make that
explicit with a `Heap` of states addressed by natural-number references,
so that the "search never mutates the caller's board" claim has real
content.

Floating-point arithmetic of the source (`math.sqrt`, `math.log`,
`float('inf')`) is idealised as real arithmetic; the UCB1 priority lives
in `EReal` with `⊤` playing the role of `float('inf')`.
-/

namespace ChessMCTS

/-- The search-tree node of the source (`class Node`).  The Python object
carries `move`, `parent`, `children`, `wins`, `visits`; the `parent`
back-reference is only used to walk the path during backpropagation and
for `parent.visits` in UCB1, so the functional tree drops it and the
embedding of the iteration threads the parent's data explicitly. -/
inductive Node (μ : Type) : Type where
  | node (move : Option μ) (wins : ℚ) (visits : ℕ) (children : List (Node μ))

/-- `move` field: the move that led to this node (`None` for the root). -/
def Node.move : Node μ → Option μ
  | .node m _ _ _ => m

/-- `wins` field: accumulated signed reward from backpropagation. -/
def Node.wins : Node μ → ℚ
  | .node _ w _ _ => w

/-- `visits` field: number of simulations that passed through this node. -/
def Node.visits : Node μ → ℕ
  | .node _ _ v _ => v

/-- `children` field: the ordered list of child nodes. -/
def Node.children : Node μ → List (Node μ)
  | .node _ _ _ cs => cs

instance : Inhabited (Node μ) := ⟨.node none 0 0 []⟩

@[simp] theorem Node.move_mk (m : Option μ) (w : ℚ) (v : ℕ) (cs : List (Node μ)) :
    (Node.node m w v cs).move = m := rfl

@[simp] theorem Node.wins_mk (m : Option μ) (w : ℚ) (v : ℕ) (cs : List (Node μ)) :
    (Node.node m w v cs).wins = w := rfl

@[simp] theorem Node.visits_mk (m : Option μ) (w : ℚ) (v : ℕ) (cs : List (Node μ)) :
    (Node.node m w v cs).visits = v := rfl

@[simp] theorem Node.children_mk (m : Option μ) (w : ℚ) (v : ℕ) (cs : List (Node μ)) :
    (Node.node m w v cs).children = cs := rfl

/-- The GameState collaborator capability bundle: exactly the methods the
source calls on a python-chess `Board` (`legal_moves`, `push`,
`is_game_over`, `result`, `turn`) plus the pluggable evaluator consulted
on truncated rollouts.  `turn s = true` means WHITE (the first-moving,
maximizing side) is to move.  `legal_nonempty` is the rules-engine
consistency contract: a non-terminal state has at least one legal move
(in chess, `is_game_over` holds exactly when no legal continuation
exists or a draw rule fires; the spec classifies its failure as a
rules-engine inconsistency, `NoLegalMoves`). -/
structure Game (σ μ : Type) where
  legalMoves : σ → List μ
  push : σ → μ → σ
  isGameOver : σ → Bool
  result : σ → String
  turn : σ → Bool
  evalBoard : σ → ℚ
  legal_nonempty : ∀ s, isGameOver s = false → legalMoves s ≠ []

/-- A store of mutable board objects: Python boards are references into
a heap; `next` is the next fresh address. -/
structure Heap (σ : Type) : Type where
  data : ℕ → σ
  next : ℕ

/-- Dereference a board object. -/
def Heap.read (h : Heap σ) (r : ℕ) : σ := h.data r

/-- Overwrite the state stored at reference `r` (in-place mutation, as
`Board.push` does). -/
def Heap.write (h : Heap σ) (r : ℕ) (s : σ) : Heap σ :=
  ⟨fun i => if i = r then s else h.data i, h.next⟩

/-- `board.copy()`: allocate a fresh object holding the same state and
return the new reference. -/
def Heap.copy (h : Heap σ) (r : ℕ) : Heap σ × ℕ :=
  (⟨fun i => if i = h.next then h.data r else h.data i, h.next + 1⟩, h.next)

/-- `board.push(move)` on the object at reference `r`. -/
def Game.pushRef (G : Game σ μ) (h : Heap σ) (r : ℕ) (m : μ) : Heap σ :=
  h.write r (G.push (h.read r) m)

@[simp] theorem Heap.read_write (h : Heap σ) (r r' : ℕ) (s : σ) :
    (h.write r s).read r' = if r' = r then s else h.read r' := rfl

@[simp] theorem Heap.next_write (h : Heap σ) (r : ℕ) (s : σ) :
    (h.write r s).next = h.next := rfl

theorem Heap.read_copy (h : Heap σ) (r r' : ℕ) :
    (h.copy r).1.read r' = if r' = h.next then h.read r else h.read r' := rfl

@[simp] theorem Heap.next_copy (h : Heap σ) (r : ℕ) :
    (h.copy r).1.next = h.next + 1 := rfl

@[simp] theorem Heap.snd_copy (h : Heap σ) (r : ℕ) : (h.copy r).2 = h.next := rfl

theorem Game.read_pushRef (G : Game σ μ) (h : Heap σ) (r r' : ℕ) (m : μ) (hne : r' ≠ r) :
    (G.pushRef h r m).read r' = h.read r' := by
  simp [Game.pushRef, hne]

@[simp] theorem Game.next_pushRef (G : Game σ μ) (h : Heap σ) (r : ℕ) (m : μ) :
    (G.pushRef h r m).next = h.next := rfl

/-- `Node.ucb1` of the source: called on a child `c`, it reads
`c.wins`, `c.visits` and `c.parent.visits`; the parent's visit count is
passed explicitly here.  `float('inf')` becomes `⊤ : EReal`; otherwise
the priority is `wins / visits + C * sqrt(log parentVisits / visits)`
with `exploration_weight` defaulting to `1.4`. -/
noncomputable def Node.ucb1 (c : Node μ) (parentVisits : ℕ)
    (exploration_weight : ℝ := 1.4) : EReal :=
  if c.visits = 0 then ⊤
  else (((c.wins : ℝ) / (c.visits : ℝ)
      + exploration_weight * Real.sqrt (Real.log parentVisits / (c.visits : ℝ)) : ℝ) : EReal)

theorem ucb1_eq_top_iff (c : Node μ) (pv : ℕ) :
    c.ucb1 pv = ⊤ ↔ c.visits = 0 := by
  unfold Node.ucb1
  split
  · simp [*]
  · simp only [iff_false, *]
    exact fun hc => EReal.coe_ne_top _ hc
    -- a finite real priority is never the infinite one

/-- Python's `max(xs, key=f)` scans left to right keeping the current
best, replacing it only on a strictly greater key; `bestAux` carries the
(index, key) of the current best and `i` is the index of the head of the
remaining list. -/
noncomputable def bestAux (f : α → EReal) : List α → ℕ × EReal → ℕ → ℕ × EReal
  | [], best, _ => best
  | c :: cs, best, i => bestAux f cs (if best.2 < f c then (i, f c) else best) (i + 1)

/-- Index (into the full children list) of the child returned by
`max(self.children, key=lambda child: child.ucb1())`. -/
noncomputable def bestIdx (f : α → EReal) (l : List α) : ℕ :=
  match l with
  | [] => 0
  | c :: cs => (bestAux f cs (0, f c) 1).1

theorem bestAux_le (f : α → EReal) :
    ∀ (s : List α) (best : ℕ × EReal) (i : ℕ),
      best.2 ≤ (bestAux f s best i).2 ∧ ∀ c ∈ s, f c ≤ (bestAux f s best i).2 := by
  intro s
  induction s with
  | nil => intro best i; simp [bestAux]
  | cons c cs ih =>
    intro best i
    simp only [bestAux]
    rcases le_or_lt (f c) best.2 with hle | hlt
    · have hnot : ¬ best.2 < f c := not_lt.mpr hle
      rw [if_neg hnot]
      refine ⟨(ih best (i + 1)).1, ?_⟩
      intro x hx
      rcases List.mem_cons.mp hx with rfl | hx
      · exact le_trans hle (ih best (i + 1)).1
      · exact (ih best (i + 1)).2 x hx
    · rw [if_pos hlt]
      refine ⟨le_trans (le_of_lt hlt) (ih (i, f c) (i + 1)).1, ?_⟩
      intro x hx
      rcases List.mem_cons.mp hx with rfl | hx
      · exact (ih (i, f x) (i + 1)).1
      · exact (ih (i, f c) (i + 1)).2 x hx

theorem bestAux_idx (f : α → EReal) (d : α) (L : List α) :
    ∀ (s : List α) (bi i : ℕ) (bv : EReal), s = L.drop i → bi < L.length →
      bv = f (L.getD bi d) →
      (bestAux f s (bi, bv) i).1 < L.length ∧
        (bestAux f s (bi, bv) i).2 = f (L.getD (bestAux f s (bi, bv) i).1 d) := by
  intro s
  induction s with
  | nil => intro bi i bv _ hbi hbv; exact ⟨hbi, hbv⟩
  | cons c cs ih =>
    intro bi i bv hdrop hbi hbv
    have hi : i < L.length := by
      by_contra hge
      have : L.drop i = [] := List.drop_eq_nil_of_le (Nat.le_of_not_lt hge)
      rw [this] at hdrop
      exact List.cons_ne_nil c cs hdrop
    have hcons : L.get ⟨i, hi⟩ :: L.drop (i + 1) = L.drop i := by
      simp
    rw [← hdrop] at hcons
    have hc : c = L.get ⟨i, hi⟩ := (List.cons.injEq _ _ _ _ ▸ hcons.symm).1
    have hcs : cs = L.drop (i + 1) := (List.cons.injEq _ _ _ _ ▸ hcons.symm).2
    simp only [bestAux]
    rcases lt_or_le bv (f c) with hlt | hle
    · rw [if_pos hlt]
      refine ih i (i + 1) (f c) hcs hi ?_
      rw [hc, List.getD_eq_getElem L d hi]
      simp
    · rw [if_neg (not_lt.mpr hle)]
      exact ih bi (i + 1) bv hcs hbi hbv

theorem bestIdx_lt (f : α → EReal) (c : α) (cs : List α) :
    bestIdx f (c :: cs) < (c :: cs).length := by
  have h := bestAux_idx f c (c :: cs) cs 0 1 (f c) rfl (by simp) (by simp)
  exact h.1

theorem bestIdx_maximal (f : α → EReal) (d : α) (c : α) (cs : List α) :
    ∀ x ∈ c :: cs, f x ≤ f ((c :: cs).getD (bestIdx f (c :: cs)) d) := by
  have hspec := bestAux_idx f d (c :: cs) cs 0 1 (f c) rfl (by simp) (by simp)
  have hle := bestAux_le f cs (0, f c) 1
  intro x hx
  rcases List.mem_cons.mp hx with rfl | hx
  · calc f x ≤ (bestAux f cs (0, f x) 1).2 := hle.1
    _ = f ((x :: cs).getD (bestIdx f (x :: cs)) d) := hspec.2
  · calc f x ≤ (bestAux f cs (0, f c) 1).2 := hle.2 x hx
    _ = f ((c :: cs).getD (bestIdx f (c :: cs)) d) := hspec.2

/-- `Node.best_child` of the source:
`max(self.children, key=lambda child: child.ucb1())`; the key reads
`child.parent.visits`, i.e. this node's own visit count. -/
noncomputable def Node.best_child (t : Node μ) : Node μ :=
  t.children.getD (bestIdx (fun c => c.ucb1 t.visits) t.children)
    (Node.node none 0 0 [])

/-- Pick `random.choice(l)` for a nonempty list: the random source is
an injectable stream `rng` of naturals and the choice at step `k` is
`l[rng k % l.length]`.  (On the empty list Python raises; every call
site is guarded by non-terminality, under which `legal_nonempty` makes
the list nonempty, so the `getD` default is never consulted.) -/
def choice (rng : ℕ → ℕ) (k : ℕ) (l : List α) (d : α) : α :=
  l.getD (rng k % l.length) d

/-- The simulation loop of `mcts`:
`while not temp_board.is_game_over() and depth < simulation_depth:
  push(random.choice(list(temp_board.legal_moves)))`.
`fuel` is the number of plies still allowed
(`simulation_depth - depth`), `tr` the reference of the private
`temp_board`, `k` the position in the random stream; the returned pair
is the heap after the rollout and the advanced stream position. -/
def simulateH (G : Game σ μ) [Inhabited μ] (rng : ℕ → ℕ) :
    ℕ → Heap σ → ℕ → ℕ → Heap σ × ℕ
  | 0, h, _, k => (h, k)
  | fuel + 1, h, tr, k =>
    if G.isGameOver (h.read tr) then (h, k)
    else
      simulateH G rng fuel
        (G.pushRef h tr (choice rng k (G.legalMoves (h.read tr)) default)) tr (k + 1)

/-- The reward computed after the rollout, before backpropagation:
`+1` on result `"1-0"` (win of the first-moving side), `-1` on `"0-1"`,
`0` on any other finished result; on a truncated (non-terminal) rollout
the evaluator's score of the final state. -/
def rawScore (G : Game σ μ) (f : σ) : ℚ :=
  if G.isGameOver f then
    if G.result f = "1-0" then 1
    else if G.result f = "0-1" then -1
    else 0
  else G.evalBoard f

/-- The quantity the backpropagation loop adds to `wins` at every node
of the path: `score if temp_board.turn == chess.WHITE else -score`.
`temp_board` is not touched by that loop, so the same signed value is
added at every level. -/
def backpropDelta (G : Game σ μ) (f : σ) : ℚ :=
  if G.turn f then rawScore G f else -(rawScore G f)

/-- One iteration of the `mcts` loop, as a recursion over the tree that
performs the source's four phases and realises backpropagation by
rebuilding the path: Selection (`while node.children: node =
node.best_child(); temp_board.push(node.move)`), Expansion (append one
fresh child per legal move, then descend into `random.choice` of them),
Simulation (`simulateH`), and the `wins`/`visits` updates of the
backpropagation loop, which adds `backpropDelta` of the final
`temp_board` at every node of the path.  Arguments: the subtree rooted
at the current node, the heap, the reference `tr` of this iteration's
`temp_board`, and the random-stream position `k`.  Returns the updated
subtree, the signed reward added along the path, the heap after the
iteration, and the advanced stream position. -/
noncomputable def iterStep (G : Game σ μ) [Inhabited μ] (simulation_depth : ℕ)
    (rng : ℕ → ℕ) : Node μ → Heap σ → ℕ → ℕ → Node μ × ℚ × Heap σ × ℕ
  | Node.node mv w v [], h, tr, k =>
    if G.isGameOver (h.read tr) then
      let d := backpropDelta G (h.read tr)
      (Node.node mv (w + d) (v + 1) [], d, h, k)
    else
      let cs := (G.legalMoves (h.read tr)).map (fun m => Node.node (some m) 0 0 [])
      let j := rng k % cs.length
      let c := cs.getD j default
      let h1 := G.pushRef h tr (c.move.getD default)
      let sk := simulateH G rng simulation_depth h1 tr (k + 1)
      let d := backpropDelta G (sk.1.read tr)
      (Node.node mv (w + d) (v + 1)
        (cs.set j (Node.node c.move (c.wins + d) (c.visits + 1) c.children)),
        d, sk.1, sk.2)
  | Node.node mv w v (c :: cs), h, tr, k =>
    let i := bestIdx (fun x => x.ucb1 v) (c :: cs)
    let ci := (c :: cs).get ⟨i, bestIdx_lt _ c cs⟩
    let h1 := G.pushRef h tr (ci.move.getD default)
    let res := iterStep G simulation_depth rng ci h1 tr k
    (Node.node mv (w + res.2.1) (v + 1) ((c :: cs).set i res.1),
      res.2.1, res.2.2.1, res.2.2.2)
termination_by t _ _ _ => sizeOf t
decreasing_by
  have hmem := List.sizeOf_lt_of_mem
    (List.get_mem (c :: cs) (bestIdx (fun x => x.ucb1 v) (c :: cs)) (bestIdx_lt _ c cs))
  simp only [Node.node.sizeOf_spec]
  omega

/-- The `for _ in range(iterations)` loop of `mcts` with `n` iterations
remaining: each pass allocates `temp_board = board.copy()` (the caller's
board lives at reference `r`), runs one `iterStep` on it, and continues
with the updated tree, heap and random-stream position. -/
noncomputable def mctsAuxH (G : Game σ μ) [Inhabited μ] (r simulation_depth : ℕ)
    (rng : ℕ → ℕ) : ℕ → Node μ → Heap σ → ℕ → Node μ × Heap σ × ℕ
  | 0, t, h, k => (t, h, k)
  | n + 1, t, h, k =>
    let ct := h.copy r
    let res := iterStep G simulation_depth rng t ct.1 ct.2 k
    mctsAuxH G r simulation_depth rng n res.1 res.2.2.1 res.2.2.2

/-- `mcts(board, iterations=1000, simulation_depth=20)`: build the root
`Node()` and run the iteration loop.  The caller's board is the object
at reference `r` in heap `h`; besides the populated root the final heap
is returned, so that effects on the store are observable. -/
noncomputable def mcts (G : Game σ μ) [Inhabited μ] (h : Heap σ) (r : ℕ)
    (rng : ℕ → ℕ) (iterations : ℕ := 1000) (simulation_depth : ℕ := 20) :
    Node μ × Heap σ :=
  let res := mctsAuxH G r simulation_depth rng iterations (Node.node none 0 0 []) h 0
  (res.1, res.2.1)

/-- `get_top_moves(node, top_n=3)`:
`sorted(node.children, key=lambda child: child.visits, reverse=True)[:top_n]`.
Python's `sorted` is a stable sort; with `reverse=True` it orders by
descending key, equal keys keeping their original order — exactly a
stable merge sort with the Boolean comparison `b.visits ≤ a.visits`. -/
def get_top_moves (node : Node μ) (top_n : ℕ := 3) : List (Node μ) :=
  (node.children.mergeSort (fun a b => b.visits ≤ a.visits)).take top_n

/-- Chess piece kinds, in the key order of the source's `PIECE_VALUES`
dictionary. -/
inductive PieceType : Type where
  | pawn | knight | bishop | rook | queen | king
deriving DecidableEq

/-- A piece: kind plus colour (`true` = `chess.WHITE`). -/
structure Piece : Type where
  piece_type : PieceType
  color : Bool
deriving DecidableEq

/-- A chess board as far as `evaluate_board` observes it: the piece (or
nothing) standing on each of the 64 squares, numbered as in
python-chess (a1 = 0, b1 = 1, …, h8 = 63). -/
def CBoard : Type := Fin 64 → Option Piece

/-- The `PIECE_VALUES` table, in dictionary iteration order. -/
def PIECE_VALUES : List (PieceType × ℚ) :=
  [(.pawn, 1), (.knight, 3), (.bishop, 3), (.rook, 5), (.queen, 9), (.king, 0)]

/-- `len(board.pieces(piece_type, color))`: how many squares hold that
piece of that colour. -/
def piecesCount (b : CBoard) (pt : PieceType) (c : Bool) : ℕ :=
  (List.finRange 64).countP (fun sq => b sq = some ⟨pt, c⟩)

/-- `board.piece_at(square)`. -/
def piece_at (b : CBoard) (sq : Fin 64) : Option Piece := b sq

/-- `center_squares = [chess.D4, chess.D5, chess.E4, chess.E5]`
(= squares 27, 35, 28, 36). -/
def center_squares : List (Fin 64) := [27, 35, 28, 36]

/-- Body of the centre-control loop of `evaluate_board`:
`if board.piece_at(square) and … color == chess.WHITE: score += 0.1
elif board.piece_at(square) and … color == chess.BLACK: score -= 0.1`
(a piece is white or black, so the `elif` guard is just occupancy). -/
def centerStep (b : CBoard) (s : ℚ) (sq : Fin 64) : ℚ :=
  match piece_at b sq with
  | some p => if p.color = true then s + 1 / 10 else s - 1 / 10
  | none => s

/-- `evaluate_board`: fold the piece-value table adding white counts and
subtracting black counts, then walk the centre squares adding `0.1` for
a white occupant and subtracting `0.1` for a black one. -/
def evaluate_board (b : CBoard) : ℚ :=
  let score := PIECE_VALUES.foldl
    (fun s pv => s + (piecesCount b pv.1 true : ℚ) * pv.2
      - (piecesCount b pv.1 false : ℚ) * pv.2) 0
  center_squares.foldl (centerStep b) score

/-- The evaluator exactly as the specification words it: total material
of the maximizing (white) side minus total material of the opponent,
plus `0.1` per centre square occupied by white minus `0.1` per centre
square occupied by black.  Stated independently of `evaluate_board` to
compare the code against the spec. -/
def specEvaluate (b : CBoard) : ℚ :=
  (PIECE_VALUES.map (fun pv => (piecesCount b pv.1 true : ℚ) * pv.2)).sum
    - (PIECE_VALUES.map (fun pv => (piecesCount b pv.1 false : ℚ) * pv.2)).sum
    + (1 / 10) * (center_squares.countP
        (fun sq => (piece_at b sq).any (fun p => p.color = true)) : ℚ)
    - (1 / 10) * (center_squares.countP
        (fun sq => (piece_at b sq).any (fun p => p.color = false)) : ℚ)

/-- The board of the spec's evaluator-determinism test: a white rook on
a1 (square 0), a black pawn on a7 (square 48), nothing else, so no
centre square is occupied. -/
def demo_board : CBoard := fun sq =>
  if sq = (0 : Fin 64) then some ⟨.rook, true⟩
  else if sq = (48 : Fin 64) then some ⟨.pawn, false⟩
  else none

/-- A tiny concrete two-player game used to exercise the generic engine
on closed inputs: a state is `(n, whiteToMove)`; a move removes
`1 ≤ m ≤ n` tokens and passes the turn; the game ends at `n = 0`, the
result string naming the player whose turn it is at the end. -/
def demoGame : Game (ℕ × Bool) ℕ where
  legalMoves s := if s.1 = 0 then [] else (List.range s.1).map (fun m => m + 1)
  push s m := (s.1 - m, !s.2)
  isGameOver s := s.1 = 0
  result s := if s.2 then "1-0" else "0-1"
  turn s := s.2
  evalBoard s := (s.1 : ℚ)
  legal_nonempty := by
    intro s hs
    have h0 : s.1 ≠ 0 := by
      intro h
      simp [h] at hs
    simp [h0]

/-- A heap holding a single demo-game board `(n, true)` at reference 0. -/
def demoHeap (n : ℕ) : Heap (ℕ × Bool) := ⟨fun _ => (n, true), 1⟩

/-- `demoGame` with every finished game classified as a draw, to
exercise the result mapping's third branch. -/
def drawGame : Game (ℕ × Bool) ℕ :=
  { demoGame with result := fun _ => "1/2-1/2" }

/-- Observation function for the tree's shape: the number of children of
the node reached from `t` by following a path of child indices (`none`
when the path falls outside the tree). -/
def childCountAt : Node μ → List ℕ → Option ℕ
  | t, [] => some t.children.length
  | Node.node _ _ _ cs, i :: p =>
    match hm : cs.get? i with
    | some c => childCountAt c p
    | none => none
termination_by t _ => sizeOf t
decreasing_by
  have hmem := List.sizeOf_lt_of_mem (List.get?_mem hm)
  simp only [Node.node.sizeOf_spec]
  omega

/-- Tree invariant maintained by the search: a never-visited node has no
children. -/
inductive WfT : Node μ → Prop where
  | mk (mv : Option μ) (w : ℚ) (v : ℕ) (cs : List (Node μ)) :
      (v = 0 → cs = []) → (∀ c ∈ cs, WfT c) → WfT (Node.node mv w v cs)

theorem WfT_inv {mv : Option μ} {w : ℚ} {v : ℕ} {cs : List (Node μ)}
    (hw : WfT (Node.node mv w v cs)) : (v = 0 → cs = []) ∧ ∀ c ∈ cs, WfT c := by
  cases hw with
  | mk _ _ _ _ h1 h2 => exact ⟨h1, h2⟩

/-- Number of unvisited children of a node. -/
def uc (t : Node μ) : ℕ := t.children.countP (fun c => c.visits = 0)

theorem Heap.read_copy_self (h : Heap σ) (r : ℕ) : (h.copy r).1.read r = h.read r := by
  rw [Heap.read_copy]
  split <;> rfl

/-- The rollout only ever pushes on this iteration's `temp_board`: every
other heap cell, and the allocation frontier, are untouched. -/
theorem simulateH_frame (G : Game σ μ) [Inhabited μ] (rng : ℕ → ℕ) :
    ∀ (fuel : ℕ) (h : Heap σ) (tr k r' : ℕ), r' ≠ tr →
      (simulateH G rng fuel h tr k).1.read r' = h.read r' ∧
        (simulateH G rng fuel h tr k).1.next = h.next := by
  intro fuel
  induction fuel with
  | zero => intro h tr k r' _; exact ⟨rfl, rfl⟩
  | succ fuel ih =>
    intro h tr k r' hne
    rw [simulateH]
    split
    · exact ⟨rfl, rfl⟩
    · refine ⟨?_, ?_⟩
      · rw [(ih _ tr (k + 1) r' hne).1, G.read_pushRef h tr r' _ hne]
      · rw [(ih _ tr (k + 1) r' hne).2, G.next_pushRef]

/-- One search iteration only ever pushes on its `temp_board` `tr`:
every other heap cell, and the allocation frontier, are untouched. -/
theorem iterStep_frame (G : Game σ μ) [Inhabited μ] (sd : ℕ) (rng : ℕ → ℕ) :
    ∀ (t : Node μ) (h : Heap σ) (tr k : ℕ) (r' : ℕ), r' ≠ tr →
      (iterStep G sd rng t h tr k).2.2.1.read r' = h.read r' ∧
        (iterStep G sd rng t h tr k).2.2.1.next = h.next := by
  intro t h tr k
  induction t, h, tr, k using iterStep.induct G sd rng with
  | case1 mv w v h tr k hgo =>
    intro r' _
    rw [iterStep, if_pos hgo]
    exact ⟨rfl, rfl⟩
  | case2 mv w v h tr k hgo =>
    intro r' hne
    rw [iterStep, if_neg hgo]
    exact ⟨((simulateH_frame G rng sd (G.pushRef h tr _) tr (k + 1) r' hne).1).trans
        (G.read_pushRef h tr r' _ hne),
      ((simulateH_frame G rng sd (G.pushRef h tr _) tr (k + 1) r' hne).2).trans rfl⟩
  | case3 mv w v c cs h tr k i ci h1 ih =>
    intro r' hne
    rw [iterStep]
    exact ⟨((ih r' hne).1).trans (G.read_pushRef h tr r' _ hne),
      ((ih r' hne).2).trans rfl⟩

/-- Backpropagation increments `visits` by exactly one at the node it
passes through, at every level of the path. -/
theorem iterStep_visits (G : Game σ μ) [Inhabited μ] (sd : ℕ) (rng : ℕ → ℕ)
    (t : Node μ) (h : Heap σ) (tr k : ℕ) :
    (iterStep G sd rng t h tr k).1.visits = t.visits + 1 := by
  induction t, h, tr, k using iterStep.induct G sd rng with
  | case1 mv w v h tr k hgo => rw [iterStep]; simp [hgo]
  | case2 mv w v h tr k hgo => rw [iterStep]; simp [hgo]
  | case3 mv w v c cs h tr k ih => rw [iterStep]; simp

/-- Across the loop, the root's visit count grows by one per iteration. -/
theorem mctsAuxH_visits (G : Game σ μ) [Inhabited μ] (r sd : ℕ) (rng : ℕ → ℕ) :
    ∀ (n : ℕ) (t : Node μ) (h : Heap σ) (k : ℕ),
      (mctsAuxH G r sd rng n t h k).1.visits = t.visits + n := by
  intro n
  induction n with
  | zero => intro t h k; rfl
  | succ n ih =>
    intro t h k
    rw [mctsAuxH]
    rw [ih]
    rw [iterStep_visits]
    omega

/-- Across the loop, every heap cell below the initial allocation
frontier keeps its state: iterations touch only their fresh copies. -/
theorem mctsAuxH_frame (G : Game σ μ) [Inhabited μ] (r sd : ℕ) (rng : ℕ → ℕ) :
    ∀ (n : ℕ) (t : Node μ) (h : Heap σ) (k : ℕ) (r' : ℕ), r' < h.next →
      (mctsAuxH G r sd rng n t h k).2.1.read r' = h.read r' ∧
        h.next ≤ (mctsAuxH G r sd rng n t h k).2.1.next := by
  intro n
  induction n with
  | zero => intro t h k r' _; exact ⟨rfl, le_refl _⟩
  | succ n ih =>
    intro t h k r' hr
    rw [mctsAuxH]
    have hcopy_read : (h.copy r).1.read r' = h.read r' := by
      rw [Heap.read_copy]
      rw [if_neg (Nat.ne_of_lt hr)]
    have hne : r' ≠ (h.copy r).2 := by
      rw [Heap.snd_copy]
      exact Nat.ne_of_lt hr
    have hframe := iterStep_frame G sd rng t (h.copy r).1 (h.copy r).2 k r' hne
    have hlt : r' < (iterStep G sd rng t (h.copy r).1 (h.copy r).2 k).2.2.1.next := by
      rw [hframe.2, Heap.next_copy]
      omega
    have hrec := ih (iterStep G sd rng t (h.copy r).1 (h.copy r).2 k).1
      (iterStep G sd rng t (h.copy r).1 (h.copy r).2 k).2.2.1
      (iterStep G sd rng t (h.copy r).1 (h.copy r).2 k).2.2.2 r' hlt
    constructor
    · rw [hrec.1, hframe.1, hcopy_read]
    · calc h.next ≤ (h.copy r).1.next := by rw [Heap.next_copy]; omega
      _ = (iterStep G sd rng t (h.copy r).1 (h.copy r).2 k).2.2.1.next := hframe.2.symm
      _ ≤ _ := hrec.2

/-- C2: for every input state and every iteration count `N`, the search
runs exactly `N` iterations (default 1000) with no early-termination
check; each level of an iteration's backpropagation increments that
node's visit count by exactly one, and consequently after the search
returns, `root.visits = N`. -/
theorem C2_root_visits_eq_iterations (G : Game σ μ) [Inhabited μ] (h : Heap σ)
    (r N sd : ℕ) (rng : ℕ → ℕ) :
    (∀ (t : Node μ) (h' : Heap σ) (tr k : ℕ),
        (iterStep G sd rng t h' tr k).1.visits = t.visits + 1) ∧
    (mcts G h r rng N sd).1.visits = N ∧
    mcts G h r rng = mcts G h r rng 1000 20 := by
  refine ⟨fun t h' tr k => iterStep_visits G sd rng t h' tr k, ?_, rfl⟩
  show (mctsAuxH G r sd rng N (Node.node none 0 0 []) h 0).1.visits = N
  rw [mctsAuxH_visits]
  simp

/-- C9: the search never mutates the game state handed to it: every
iteration replays moves only on its private per-iteration copy, so the
caller's board (any reference already allocated before the call) holds
the same state after `mcts` returns. -/
theorem C9_caller_board_unmutated (G : Game σ μ) [Inhabited μ] (h : Heap σ)
    (r N sd : ℕ) (rng : ℕ → ℕ) (hr : r < h.next) :
    (mcts G h r rng N sd).2.read r = h.read r := by
  show (mctsAuxH G r sd rng N (Node.node none 0 0 []) h 0).2.1.read r = h.read r
  exact (mctsAuxH_frame G r sd rng N (Node.node none 0 0 []) h 0 r hr).1

theorem C9_caller_board_unmutated_witness :
    0 < (demoHeap 3).next ∧
      (mcts demoGame (demoHeap 3) 0 (fun _ => 0) 5 20).2.read 0 = (demoHeap 3).read 0 :=
  ⟨by decide,
    C9_caller_board_unmutated demoGame (demoHeap 3) 0 5 20 (fun _ => 0) (by decide)⟩

/-- If the board the iterations see at the caller's reference is
terminal, every iteration leaves the node childless and draws no random
value at all: expansion is skipped and the simulation loop never runs. -/
theorem mctsAuxH_terminal (G : Game σ μ) [Inhabited μ] (r sd : ℕ) (rng : ℕ → ℕ) :
    ∀ (N : ℕ) (mv : Option μ) (w : ℚ) (v : ℕ) (h : Heap σ) (k : ℕ),
      G.isGameOver (h.read r) = true →
      (mctsAuxH G r sd rng N (Node.node mv w v []) h k).1.children = [] ∧
        (mctsAuxH G r sd rng N (Node.node mv w v []) h k).2.2 = k := by
  intro N
  induction N with
  | zero => intro mv w v h k _; exact ⟨rfl, rfl⟩
  | succ N ih =>
    intro mv w v h k hterm
    have htr : (h.copy r).1.read (h.copy r).2 = h.read r := by
      rw [Heap.snd_copy, Heap.read_copy]
      simp
    have hstep : iterStep G sd rng (Node.node mv w v []) (h.copy r).1 (h.copy r).2 k
        = (Node.node mv (w + backpropDelta G (h.read r)) (v + 1) [],
            backpropDelta G (h.read r), (h.copy r).1, k) := by
      rw [iterStep, htr, if_pos hterm]
    rw [mctsAuxH, hstep]
    have hterm' : G.isGameOver ((h.copy r).1.read r) = true := by
      rw [Heap.read_copy_self]
      exact hterm
    exact ⟨(ih mv _ (v + 1) (h.copy r).1 k hterm').1,
      (ih mv _ (v + 1) (h.copy r).1 k hterm').2⟩

/-- C4: `search` on an already-terminal input state returns a root with
zero children and never invokes the rollout simulator: in every
iteration, expansion is skipped and no random value is drawn, so no
rollout move is selected or applied (the random-stream position after
the loop is still the initial one). -/
theorem C4_terminal_short_circuit (G : Game σ μ) [Inhabited μ] (h : Heap σ)
    (r N sd : ℕ) (rng : ℕ → ℕ) (hterm : G.isGameOver (h.read r) = true) :
    (mcts G h r rng N sd).1.children = [] ∧
      (mctsAuxH G r sd rng N (Node.node none 0 0 []) h 0).2.2 = 0 := by
  have hh := mctsAuxH_terminal G r sd rng N none 0 0 h 0 hterm
  exact ⟨hh.1, hh.2⟩

theorem C4_terminal_short_circuit_witness :
    demoGame.isGameOver ((demoHeap 0).read 0) = true ∧
      ((mcts demoGame (demoHeap 0) 0 (fun _ => 0) 7 20).1.children = [] ∧
        (mctsAuxH demoGame 0 20 (fun _ => 0) 7 (Node.node none 0 0 [])
            (demoHeap 0) 0).2.2 = 0) :=
  ⟨by decide,
    C4_terminal_short_circuit demoGame (demoHeap 0) 0 7 20 (fun _ => 0) (by decide)⟩

/-- C5: `get_top_moves(rootNode, n)` returns the root's children sorted
in descending order of `visits` (not by win rate or average score),
truncated to the first `n`; in particular, for three children with
(visits, wins) = (10, 5), (3, 3), (20, 1), the top two are the
visits-20 child followed by the visits-10 child, regardless of their
score averages. -/
theorem C5_top_moves_sorted_by_visits (t : Node μ) (n : ℕ) :
    List.Sorted (fun a b : Node μ => b.visits ≤ a.visits)
      (t.children.mergeSort (fun a b => b.visits ≤ a.visits)) ∧
    (t.children.mergeSort (fun a b => b.visits ≤ a.visits)).Perm t.children ∧
    get_top_moves t n = (t.children.mergeSort (fun a b => b.visits ≤ a.visits)).take n ∧
    get_top_moves (Node.node none 0 33
        [Node.node (some 0) 5 10 [], Node.node (some 1) 3 3 [],
          Node.node (some 2) 1 20 []]) 2
      = [Node.node (some 2) 1 20 [], Node.node (some 0) 5 10 []] := by
  refine ⟨?_, List.mergeSort_perm t.children _, rfl, by with_unfolding_all rfl⟩
  have hs := @List.sorted_mergeSort (Node μ) (fun a b : Node μ => decide (b.visits ≤ a.visits))
    (by intro a b c hab hbc; simp at hab hbc ⊢; omega)
    (by intro a b; simp [Nat.le_total])
    t.children
  refine hs.imp ?_
  intro a b hab
  simpa using hab

/-- The centre-control loop adds `0.1` per square (of the given list)
holding a white piece and subtracts `0.1` per square holding a black
one. -/
theorem center_foldl (b : CBoard) :
    ∀ (l : List (Fin 64)) (s : ℚ),
      l.foldl (centerStep b) s
      = s + (1 / 10) * (l.countP
            (fun sq => (piece_at b sq).any (fun p => p.color = true)) : ℚ)
          - (1 / 10) * (l.countP
            (fun sq => (piece_at b sq).any (fun p => p.color = false)) : ℚ) := by
  intro l
  induction l with
  | nil => intro s; simp
  | cons sq l ih =>
    intro s
    rw [List.foldl_cons, List.countP_cons, List.countP_cons, ih]
    cases hp : piece_at b sq with
    | none => simp [centerStep, hp]
    | some p =>
      cases hc : p.color
      · simp [centerStep, hp, hc]
        ring
      · simp [centerStep, hp, hc]
        ring

/-- C8: for every board, the evaluator returns the material sum of the
white (maximizing) side minus the opponent's, with the table pawn=1,
knight=3, bishop=3, rook=5, queen=9, king=0, plus `0.1` per centre
square (d4, d5, e4, e5) occupied by white and minus `0.1` per centre
square occupied by black; and on the board with only a white rook and a
black pawn off-centre it returns exactly `5 - 1 = 4`. -/
theorem C8_evaluator_material_plus_center (b : CBoard) :
    evaluate_board b = specEvaluate b ∧ evaluate_board demo_board = 4 := by
  constructor
  · rw [evaluate_board, center_foldl b center_squares]
    simp [specEvaluate, PIECE_VALUES]
    ring
  · have hpw : piecesCount demo_board .pawn true = 0 := by decide
    have hpb : piecesCount demo_board .pawn false = 1 := by decide
    have hnw : piecesCount demo_board .knight true = 0 := by decide
    have hnb : piecesCount demo_board .knight false = 0 := by decide
    have hbw : piecesCount demo_board .bishop true = 0 := by decide
    have hbb : piecesCount demo_board .bishop false = 0 := by decide
    have hrw : piecesCount demo_board .rook true = 1 := by decide
    have hrb : piecesCount demo_board .rook false = 0 := by decide
    have hqw : piecesCount demo_board .queen true = 0 := by decide
    have hqb : piecesCount demo_board .queen false = 0 := by decide
    have hkw : piecesCount demo_board .king true = 0 := by decide
    have hkb : piecesCount demo_board .king false = 0 := by decide
    have h27 : ∀ s : ℚ, centerStep demo_board s 27 = s := fun s => rfl
    have h35 : ∀ s : ℚ, centerStep demo_board s 35 = s := fun s => rfl
    have h28 : ∀ s : ℚ, centerStep demo_board s 28 = s := fun s => rfl
    have h36 : ∀ s : ℚ, centerStep demo_board s 36 = s := fun s => rfl
    simp only [evaluate_board, PIECE_VALUES, center_squares, List.foldl_cons,
      List.foldl_nil, hpw, hpb, hnw, hnb, hbw, hbb, hrw, hrb, hqw, hqb, hkw, hkb,
      h27, h35, h28, h36]
    norm_num

/-- C3: an unvisited child has UCB1 priority `+∞` (so it beats every
visited sibling for any exploration constant, and its priority does not
depend on its accumulated score — the average of an unvisited child is
never computed); a visited child has priority
`wins/visits + C*sqrt(ln(parent.visits)/visits)` with `C` defaulting to
`1.4`; and `best_child` returns a member of `children` whose UCB1
priority is maximal among them. -/
theorem C3_ucb1_selection (pv v : ℕ) (mv : Option μ) (w w' : ℚ)
    (cs cs' : List (Node μ)) (C : ℝ) (t : Node μ) (ht : t.children ≠ []) :
    Node.ucb1 (Node.node mv w 0 cs) pv C = ⊤ ∧
    (v ≠ 0 → Node.ucb1 (Node.node mv w v cs) pv C
      = (((w : ℝ) / (v : ℝ) + C * Real.sqrt (Real.log (pv : ℝ) / (v : ℝ)) : ℝ) : EReal)) ∧
    Node.ucb1 (Node.node mv w 0 cs) pv C = Node.ucb1 (Node.node mv w' 0 cs') pv C ∧
    (∀ c : Node μ, Node.ucb1 c pv = Node.ucb1 c pv 1.4) ∧
    t.best_child ∈ t.children ∧
    (∀ x ∈ t.children, Node.ucb1 x t.visits ≤ Node.ucb1 t.best_child t.visits) := by
  obtain ⟨c, cs0, hc⟩ : ∃ c cs0, t.children = c :: cs0 := by
    cases hcc : t.children with
    | nil => exact absurd hcc ht
    | cons c cs0 => exact ⟨c, cs0, rfl⟩
  refine ⟨by simp [Node.ucb1], fun hv => by simp [Node.ucb1, hv], by simp [Node.ucb1],
    fun c => rfl, ?_, ?_⟩
  · rw [Node.best_child, hc,
      List.getD_eq_getElem (c :: cs0) (Node.node none 0 0 [])
        (bestIdx_lt (fun x => x.ucb1 t.visits) c cs0)]
    exact List.getElem_mem _
  · intro x hx
    rw [Node.best_child, hc]
    rw [hc] at hx
    exact bestIdx_maximal (fun y => y.ucb1 t.visits) (Node.node none 0 0 []) c cs0 x hx

theorem C3_ucb1_selection_witness :
    (Node.node (none : Option ℕ) 0 5
        [Node.node (some 0) 2 5 [], Node.node (some 1) 0 0 []]).children ≠ [] ∧
    (5 : ℕ) ≠ 0 ∧
    Node.ucb1 (Node.node (some 1) (2 : ℚ) 0 ([] : List (Node ℕ))) 5 1.4 = ⊤ ∧
    ((Node.node (none : Option ℕ) 0 5
        [Node.node (some 0) 2 5 [], Node.node (some 1) 0 0 []]).best_child ∈
      (Node.node (none : Option ℕ) 0 5
        [Node.node (some 0) 2 5 [], Node.node (some 1) 0 0 []]).children) ∧
    (∀ x ∈ (Node.node (none : Option ℕ) 0 5
        [Node.node (some 0) 2 5 [], Node.node (some 1) 0 0 []]).children,
      Node.ucb1 x 5 ≤ Node.ucb1 (Node.node (none : Option ℕ) 0 5
        [Node.node (some 0) 2 5 [], Node.node (some 1) 0 0 []]).best_child 5) := by
  have h := C3_ucb1_selection 5 5 (some 1) (2 : ℚ) (3 : ℚ) ([] : List (Node ℕ)) [] 1.4
    (Node.node (none : Option ℕ) 0 5
      [Node.node (some 0) 2 5 [], Node.node (some 1) 0 0 []])
    (by simp)
  exact ⟨by simp, by decide, h.1, h.2.2.2.2.1, h.2.2.2.2.2⟩

/-- C7: the rollout repeatedly applies a randomly chosen legal move
until the state is terminal or the depth bound runs out (with
`simulation_depth` defaulting to 20 plies in `mcts`), and the chosen
move is always one of the legal moves; the iteration's reward is +1 if
the final state is terminal with result `"1-0"` (a win of the
first-moving side), -1 on `"0-1"`, 0 on any other finished result, and
the evaluator's score of the final state when the depth bound was hit
without termination. -/
theorem C7_rollout_and_reward (G : Game σ μ) [Inhabited μ] (rng : ℕ → ℕ)
    (h : Heap σ) (tr k fuel N : ℕ) (f : σ) :
    (simulateH G rng 0 h tr k = (h, k)) ∧
    (G.isGameOver (h.read tr) = true → simulateH G rng (fuel + 1) h tr k = (h, k)) ∧
    (G.isGameOver (h.read tr) = false →
      simulateH G rng (fuel + 1) h tr k
        = simulateH G rng fuel
            (G.pushRef h tr (choice rng k (G.legalMoves (h.read tr)) default)) tr (k + 1)) ∧
    (G.legalMoves (h.read tr) ≠ [] →
      choice rng k (G.legalMoves (h.read tr)) default ∈ G.legalMoves (h.read tr)) ∧
    (G.isGameOver f = true → G.result f = "1-0" → rawScore G f = 1) ∧
    (G.isGameOver f = true → G.result f = "0-1" → rawScore G f = -1) ∧
    (G.isGameOver f = true → G.result f ≠ "1-0" → G.result f ≠ "0-1" → rawScore G f = 0) ∧
    (G.isGameOver f = false → rawScore G f = G.evalBoard f) ∧
    mcts G h tr rng N = mcts G h tr rng N 20 := by
  refine ⟨rfl, ?_, ?_, ?_, ?_, ?_, ?_, ?_, rfl⟩
  · intro hgo
    rw [simulateH, if_pos hgo]
  · intro hgo
    rw [simulateH, if_neg ?_]
    rw [hgo]
    simp
  · intro hne
    have hlen : 0 < (G.legalMoves (h.read tr)).length := List.length_pos.mpr hne
    have hlt : rng k % (G.legalMoves (h.read tr)).length
        < (G.legalMoves (h.read tr)).length := Nat.mod_lt _ hlen
    rw [choice, List.getD_eq_getElem _ _ hlt]
    exact List.getElem_mem _
  · intro hgo hres
    rw [rawScore, if_pos hgo, if_pos hres]
  · intro hgo hres
    have hne : G.result f ≠ "1-0" := by rw [hres]; decide
    rw [rawScore, if_pos hgo, if_neg hne, if_pos hres]
  · intro hgo hne1 hne2
    rw [rawScore, if_pos hgo, if_neg hne1, if_neg hne2]
  · intro hgo
    rw [rawScore, if_neg ?_]
    rw [hgo]
    simp

theorem C7_rollout_and_reward_witness :
    (simulateH demoGame (fun _ => 0) 0 (demoHeap 2) 0 0 = (demoHeap 2, 0)) ∧
    (demoGame.isGameOver ((demoHeap 0).read 0) = true ∧
      simulateH demoGame (fun _ => 0) 6 (demoHeap 0) 0 0 = (demoHeap 0, 0)) ∧
    (demoGame.legalMoves ((demoHeap 2).read 0) ≠ [] ∧
      choice (fun _ => 0) 0 (demoGame.legalMoves ((demoHeap 2).read 0)) default
        ∈ demoGame.legalMoves ((demoHeap 2).read 0)) ∧
    rawScore demoGame (0, true) = 1 ∧
    rawScore demoGame (0, false) = -1 ∧
    rawScore drawGame (0, true) = 0 ∧
    rawScore demoGame (3, true) = demoGame.evalBoard (3, true) := by
  refine ⟨(C7_rollout_and_reward demoGame (fun _ => 0) (demoHeap 2) 0 0 4 7 (0, true)).1,
    ⟨by decide, (C7_rollout_and_reward demoGame (fun _ => 0) (demoHeap 0) 0 0 5 7
      (0, true)).2.1 (by decide)⟩,
    ⟨by decide, (C7_rollout_and_reward demoGame (fun _ => 0) (demoHeap 2) 0 0 4 7
      (0, true)).2.2.2.1 (by decide)⟩,
    (C7_rollout_and_reward demoGame (fun _ => 0) (demoHeap 2) 0 0 4 7
      (0, true)).2.2.2.2.1 (by decide) (by decide),
    (C7_rollout_and_reward demoGame (fun _ => 0) (demoHeap 2) 0 0 4 7
      (0, false)).2.2.2.2.2.1 (by decide) (by decide),
    (C7_rollout_and_reward drawGame (fun _ => 0) (demoHeap 2) 0 0 4 7
      (0, true)).2.2.2.2.2.2.1 (by decide) (by decide) (by decide),
    (C7_rollout_and_reward demoGame (fun _ => 0) (demoHeap 2) 0 0 4 7
      (3, true)).2.2.2.2.2.2.2.1 (by decide)⟩

/-- C1 (refuted by the code): after one iteration on the non-terminal
demo state `(1, true)`, the rollout's starting child and the root —
adjacent nodes on the backpropagation path — have both received the
same signed contribution `+1` (`wins` goes 0 → 1 at both levels), not
contributions of opposite sign as the sign-alternation contract
demands.  The backpropagation loop adds
`score if temp_board.turn == chess.WHITE else -score` at every node,
and `temp_board` does not change during the loop, so the identical
signed reward is added at every level of the path. -/
theorem C1_backprop_uniform_sign :
    (mcts demoGame (demoHeap 1) 0 (fun _ => 0) 1 20).1
      = Node.node none 1 1 [Node.node (some 1) 1 1 []] ∧
    ((mcts demoGame (demoHeap 1) 0 (fun _ => 0) 1 20).1.children.getD 0 default).wins
      = (mcts demoGame (demoHeap 1) 0 (fun _ => 0) 1 20).1.wins ∧
    ¬ ((mcts demoGame (demoHeap 1) 0 (fun _ => 0) 1 20).1.children.getD 0
          default).wins
        = -(mcts demoGame (demoHeap 1) 0 (fun _ => 0) 1 20).1.wins := by
  have heval : (mcts demoGame (demoHeap 1) 0 (fun _ => 0) 1 20).1
      = Node.node none 1 1 [Node.node (some 1) 1 1 []] := by
    show (mctsAuxH demoGame 0 20 (fun _ => 0) 1 (Node.node none 0 0 [])
        (demoHeap 1) 0).1
      = Node.node none 1 1 [Node.node (some 1) 1 1 []]
    rw [show (1 : ℕ) = 0 + 1 from rfl, mctsAuxH, mctsAuxH]
    rw [iterStep]
    simp [demoGame, demoHeap, Heap.copy, Heap.read, Heap.write, Game.pushRef,
      backpropDelta, rawScore, choice, simulateH]
    rfl
  rw [heval]
  refine ⟨rfl, rfl, ?_⟩
  norm_num

/-- Once a node anywhere in the tree has a non-empty children list, one
search iteration leaves its number of children unchanged. -/
theorem iterStep_childCountAt (G : Game σ μ) [Inhabited μ] (sd : ℕ) (rng : ℕ → ℕ) :
    ∀ (t : Node μ) (h : Heap σ) (tr k : ℕ), ∀ (p : List ℕ) (n : ℕ), 0 < n →
      childCountAt t p = some n →
      childCountAt (iterStep G sd rng t h tr k).1 p = some n := by
  intro t h tr k
  induction t, h, tr, k using iterStep.induct G sd rng with
  | case1 mv w v h tr k hgo =>
    intro p n hn hcount
    exfalso
    cases p with
    | nil => simp [childCountAt] at hcount; omega
    | cons i p' => simp [childCountAt] at hcount
  | case2 mv w v h tr k hgo =>
    intro p n hn hcount
    exfalso
    cases p with
    | nil => simp [childCountAt] at hcount; omega
    | cons i p' => simp [childCountAt] at hcount
  | case3 mv w v c cs h tr k i ci h1 ih =>
    intro p n hn hcount
    rw [iterStep]
    cases p with
    | nil =>
      rw [childCountAt] at hcount ⊢
      simp only [Node.children_mk, List.length_set]
      simpa using hcount
    | cons j p' =>
      rw [childCountAt] at hcount
      show childCountAt (Node.node mv _ (v + 1) ((c :: cs).set i
        (iterStep G sd rng ci h1 tr k).1)) (j :: p') = some n
      rw [childCountAt]
      rcases hj : (c :: cs).get? j with _ | cj
      · rw [hj] at hcount
        simp at hcount
      · rw [hj] at hcount
        by_cases hij : i = j
        · subst hij
          have hi : i < (c :: cs).length := bestIdx_lt (fun x => x.ucb1 v) c cs
          have hset : ((c :: cs).set i (iterStep G sd rng ci h1 tr k).1).get? i
              = some (iterStep G sd rng ci h1 tr k).1 := by
            simp only [List.get?_eq_getElem?]
            exact List.getElem?_set_self hi
          rw [hset]
          have hci : cj = ci := by
            have := List.get?_eq_get hi
            rw [this] at hj
            exact (Option.some.injEq _ _ ▸ hj.symm)
          rw [hci] at hcount
          exact ih p' n hn hcount
        · have hset : ((c :: cs).set i (iterStep G sd rng ci h1 tr k).1).get? j
              = (c :: cs).get? j := by
            simp only [List.get?_eq_getElem?]
            exact List.getElem?_set_ne hij
          rw [hset, hj]
          exact hcount

/-- Once a node anywhere in the tree has a non-empty children list, the
rest of the iteration loop leaves its number of children unchanged. -/
theorem mctsAuxH_childCountAt (G : Game σ μ) [Inhabited μ] (r sd : ℕ) (rng : ℕ → ℕ) :
    ∀ (N : ℕ) (t : Node μ) (h : Heap σ) (k : ℕ) (p : List ℕ) (n : ℕ), 0 < n →
      childCountAt t p = some n →
      childCountAt (mctsAuxH G r sd rng N t h k).1 p = some n := by
  intro N
  induction N with
  | zero => intro t h k p n _ hc; exact hc
  | succ N ih =>
    intro t h k p n hn hc
    rw [mctsAuxH]
    exact ih _ _ _ p n hn
      (iterStep_childCountAt G sd rng t (h.copy r).1 (h.copy r).2 k p n hn hc)

/-- C6: within a search invocation, expansion happens at most once per
node: a node (at any tree position `p`) whose children list is already
non-empty is never expanded again — its number of children stays the
same through the remaining single iteration and through any number of
further iterations (no duplicated children). -/
theorem C6_expansion_at_most_once (G : Game σ μ) [Inhabited μ] (r tr sd N k : ℕ)
    (rng : ℕ → ℕ) (t : Node μ) (h : Heap σ) (p : List ℕ) (n : ℕ) (hn : 0 < n)
    (hcount : childCountAt t p = some n) :
    childCountAt (iterStep G sd rng t h tr k).1 p = some n ∧
    childCountAt (mctsAuxH G r sd rng N t h k).1 p = some n :=
  ⟨iterStep_childCountAt G sd rng t h tr k p n hn hcount,
    mctsAuxH_childCountAt G r sd rng N t h k p n hn hcount⟩

theorem C6_expansion_at_most_once_witness :
    (0 : ℕ) < 1 ∧
    childCountAt (Node.node (none : Option ℕ) 0 1 [Node.node (some 1) 0 1 []]) []
      = some 1 ∧
    (childCountAt (iterStep demoGame 20 (fun _ => 0)
          (Node.node (none : Option ℕ) 0 1 [Node.node (some 1) 0 1 []])
          (demoHeap 2) 1 0).1 [] = some 1 ∧
      childCountAt (mctsAuxH demoGame 0 20 (fun _ => 0) 3
          (Node.node (none : Option ℕ) 0 1 [Node.node (some 1) 0 1 []])
          (demoHeap 2) 0).1 [] = some 1) :=
  ⟨Nat.one_pos, by simp [childCountAt],
    C6_expansion_at_most_once demoGame 0 1 20 3 0 (fun _ => 0)
      (Node.node (none : Option ℕ) 0 1 [Node.node (some 1) 0 1 []])
      (demoHeap 2) [] 1 Nat.one_pos (by simp [childCountAt])⟩

theorem countP_set_true_false (p : α → Bool) :
    ∀ (l : List α) (i : ℕ) (b : α) (hi : i < l.length),
      p (l.get ⟨i, hi⟩) = true → p b = false →
      (l.set i b).countP p + 1 = l.countP p := by
  intro l
  induction l with
  | nil => intro i b hi; exact absurd hi (Nat.not_lt_zero i)
  | cons a l ih =>
    intro i b hi hp hb
    cases i with
    | zero =>
      simp only [List.get] at hp
      rw [show (a :: l).set 0 b = b :: l from rfl, List.countP_cons, List.countP_cons, hp, hb]
      simp
    | succ i =>
      have hi' : i < l.length := Nat.lt_of_succ_lt_succ hi
      rw [show (a :: l).set (i + 1) b = a :: l.set i b from rfl,
        List.countP_cons, List.countP_cons]
      have := ih i b hi' hp hb
      omega

/-- When some child is unvisited, UCB1 selection picks an unvisited
child: the unvisited priority is `⊤` and `best_child` maximises. -/
theorem bestIdx_unvisited (v : ℕ) (c : Node μ) (cs : List (Node μ))
    (hex : ∃ x ∈ c :: cs, x.visits = 0) :
    ((c :: cs).get ⟨bestIdx (fun x => x.ucb1 v) (c :: cs),
        bestIdx_lt (fun x => x.ucb1 v) c cs⟩).visits = 0 := by
  obtain ⟨x, hx, hx0⟩ := hex
  have hmax : x.ucb1 v
      ≤ ((c :: cs).getD (bestIdx (fun y => y.ucb1 v) (c :: cs)) default).ucb1 v :=
    bestIdx_maximal (fun y => y.ucb1 v) default c cs x hx
  have hfx : x.ucb1 v = ⊤ := (ucb1_eq_top_iff x v).mpr hx0
  rw [hfx] at hmax
  have htop := top_le_iff.mp hmax
  rw [List.getD_eq_getElem _ _ (bestIdx_lt (fun x => x.ucb1 v) c cs)] at htop
  have := (ucb1_eq_top_iff _ v).mp htop
  simpa [List.get_eq_getElem] using this


theorem fresh_child_getD (l : List μ) (j : ℕ) :
    ∃ mvx, (l.map (fun m => Node.node (some m) (0 : ℚ) 0 ([] : List (Node μ)))).getD j default
      = Node.node mvx 0 0 [] := by
  rcases Nat.lt_or_ge j
      (l.map (fun m => Node.node (some m) (0 : ℚ) 0 ([] : List (Node μ)))).length with hj | hj
  · rw [List.getD_eq_getElem _ _ hj, List.getElem_map]
    exact ⟨some _, rfl⟩
  · rw [List.getD_eq_default _ _ hj]
    exact ⟨none, rfl⟩

theorem iterStep_wf (G : Game σ μ) [Inhabited μ] (sd : ℕ) (rng : ℕ → ℕ) :
    ∀ (t : Node μ) (h : Heap σ) (tr k : ℕ), WfT t → WfT (iterStep G sd rng t h tr k).1 := by
  intro t h tr k
  induction t, h, tr, k using iterStep.induct G sd rng with
  | case1 mv w v h tr k hgo =>
    intro _
    rw [iterStep, if_pos hgo]
    exact WfT.mk _ _ _ _ (fun _ => rfl) (fun c hc => absurd hc (List.not_mem_nil c))
  | case2 mv w v h tr k hgo =>
    intro _
    rw [iterStep, if_neg hgo]
    refine WfT.mk _ _ _ _ (fun hv => absurd hv (Nat.succ_ne_zero v)) ?_
    intro x hx
    rcases List.mem_or_eq_of_mem_set hx with hx' | rfl
    · obtain ⟨m, _, rfl⟩ := List.mem_map.mp hx'
      exact WfT.mk _ _ _ _ (fun _ => rfl) (fun c hc => absurd hc (List.not_mem_nil c))
    · obtain ⟨mvx, hsh⟩ := fresh_child_getD (G.legalMoves (h.read tr))
        (rng k % ((G.legalMoves (h.read tr)).map
          (fun m => Node.node (some m) (0 : ℚ) 0 ([] : List (Node μ)))).length)
      rw [hsh, Node.move_mk, Node.wins_mk, Node.visits_mk, Node.children_mk]
      exact WfT.mk _ _ _ _ (fun hv => absurd hv (Nat.succ_ne_zero 0))
        (fun c hc => absurd hc (List.not_mem_nil c))
  | case3 mv w v c cs h tr k i ci h1 ih =>
    intro hwf
    rw [iterStep]
    have hinv := WfT_inv hwf
    refine WfT.mk _ _ _ _ (fun hv => absurd hv (Nat.succ_ne_zero v)) ?_
    intro x hx
    rcases List.mem_or_eq_of_mem_set hx with hx' | rfl
    · exact hinv.2 x hx'
    · exact ih (hinv.2 ci (List.get_mem (c :: cs) i (bestIdx_lt (fun x => x.ucb1 v) c cs)))

theorem iterStep_children_ne_nil (G : Game σ μ) [Inhabited μ] (sd : ℕ) (rng : ℕ → ℕ)
    (mv : Option μ) (w : ℚ) (v : ℕ) (c : Node μ) (cs : List (Node μ))
    (h : Heap σ) (tr k : ℕ) :
    (iterStep G sd rng (Node.node mv w v (c :: cs)) h tr k).1.children ≠ [] := by
  rw [iterStep]
  intro heq
  rw [Node.children_mk] at heq
  have := congrArg List.length heq
  rw [List.length_set] at this
  simp at this

theorem iterStep_uc_zero (G : Game σ μ) [Inhabited μ] (sd : ℕ) (rng : ℕ → ℕ)
    (mv : Option μ) (w : ℚ) (v : ℕ) (c : Node μ) (cs : List (Node μ))
    (h : Heap σ) (tr k : ℕ)
    (huc : uc (Node.node mv w v (c :: cs)) = 0) :
    uc (iterStep G sd rng (Node.node mv w v (c :: cs)) h tr k).1 = 0 := by
  rw [iterStep]
  simp only [uc, Node.children_mk] at huc ⊢
  rw [List.countP_eq_zero] at huc ⊢
  intro x hx
  rcases List.mem_or_eq_of_mem_set hx with hx' | rfl
  · exact huc x hx'
  · simp [iterStep_visits]

theorem iterStep_uc_pos (G : Game σ μ) [Inhabited μ] (sd : ℕ) (rng : ℕ → ℕ)
    (mv : Option μ) (w : ℚ) (v : ℕ) (c : Node μ) (cs : List (Node μ))
    (h : Heap σ) (tr k : ℕ)
    (hpos : 0 < uc (Node.node mv w v (c :: cs))) :
    uc (iterStep G sd rng (Node.node mv w v (c :: cs)) h tr k).1 + 1
      = uc (Node.node mv w v (c :: cs)) := by
  have hex : ∃ x ∈ c :: cs, x.visits = 0 := by
    simp only [uc, Node.children_mk] at hpos
    have := List.countP_pos_iff.mp hpos
    simpa using this
  have hci0 := bestIdx_unvisited v c cs hex
  rw [iterStep]
  simp only [uc, Node.children_mk]
  refine countP_set_true_false _ (c :: cs) _ _ (bestIdx_lt (fun x => x.ucb1 v) c cs) ?_ ?_
  · simpa using hci0
  · simp [iterStep_visits]

theorem Heap.read_copy_new (h : Heap σ) (r : ℕ) :
    (h.copy r).1.read (h.copy r).2 = h.read r := by
  rw [Heap.snd_copy, Heap.read_copy]
  simp

theorem mctsAuxH_uc (G : Game σ μ) [Inhabited μ] (r sd : ℕ) (rng : ℕ → ℕ) :
    ∀ (m : ℕ) (t : Node μ) (h : Heap σ) (k : ℕ),
      WfT t → t.children ≠ [] →
      uc (mctsAuxH G r sd rng m t h k).1 ≤ uc t - m := by
  intro m
  induction m with
  | zero =>
    intro t h k _ _
    rw [Nat.sub_zero]
    exact le_refl _
  | succ m ih =>
    intro t h k hwf hne
    obtain ⟨mv, w, v, cs0, rfl⟩ : ∃ mv w v cs0, t = Node.node mv w v cs0 := by
      cases t with | node mv w v cs0 => exact ⟨mv, w, v, cs0, rfl⟩
    cases cs0 with
    | nil => simp at hne
    | cons c cs =>
      rw [mctsAuxH]
      have hwf' := iterStep_wf G sd rng (Node.node mv w v (c :: cs))
        (h.copy r).1 (h.copy r).2 k hwf
      have hne' := iterStep_children_ne_nil G sd rng mv w v c cs
        (h.copy r).1 (h.copy r).2 k
      have hrec := ih
        (iterStep G sd rng (Node.node mv w v (c :: cs)) (h.copy r).1 (h.copy r).2 k).1
        (iterStep G sd rng (Node.node mv w v (c :: cs)) (h.copy r).1 (h.copy r).2 k).2.2.1
        (iterStep G sd rng (Node.node mv w v (c :: cs)) (h.copy r).1 (h.copy r).2 k).2.2.2
        hwf' hne'
      rcases Nat.eq_zero_or_pos (uc (Node.node mv w v (c :: cs))) with h0 | hp
      · have hz := iterStep_uc_zero G sd rng mv w v c cs (h.copy r).1 (h.copy r).2 k h0
        omega
      · have hp' := iterStep_uc_pos G sd rng mv w v c cs (h.copy r).1 (h.copy r).2 k hp
        omega

theorem iterStep_root_expansion (G : Game σ μ) [Inhabited μ] (sd : ℕ) (rng : ℕ → ℕ)
    (h : Heap σ) (tr k : ℕ) (hgo : G.isGameOver (h.read tr) = false) :
    (iterStep G sd rng (Node.node none 0 0 []) h tr k).1.children.length
        = (G.legalMoves (h.read tr)).length ∧
      uc (iterStep G sd rng (Node.node none 0 0 []) h tr k).1
        = (G.legalMoves (h.read tr)).length - 1 := by
  have hgo' : ¬ G.isGameOver (h.read tr) = true := by rw [hgo]; simp
  have hLpos : 0 < (G.legalMoves (h.read tr)).length :=
    List.length_pos.mpr (G.legal_nonempty _ hgo)
  rw [iterStep, if_neg hgo']
  constructor
  · rw [Node.children_mk, List.length_set, List.length_map]
  · simp only [uc, Node.children_mk]
    have hmaplen : ((G.legalMoves (h.read tr)).map
        (fun m => Node.node (some m) (0 : ℚ) 0 ([] : List (Node μ)))).length
        = (G.legalMoves (h.read tr)).length := List.length_map _ _
    have hj : rng k % ((G.legalMoves (h.read tr)).map
        (fun m => Node.node (some m) (0 : ℚ) 0 ([] : List (Node μ)))).length
        < ((G.legalMoves (h.read tr)).map
        (fun m => Node.node (some m) (0 : ℚ) 0 ([] : List (Node μ)))).length := by
      refine Nat.mod_lt _ ?_
      rw [hmaplen]
      exact hLpos
    have hfull : ((G.legalMoves (h.read tr)).map
        (fun m => Node.node (some m) (0 : ℚ) 0 ([] : List (Node μ)))).countP
          (fun c => decide (c.visits = 0))
        = (G.legalMoves (h.read tr)).length := by
      rw [← hmaplen]
      refine List.countP_eq_length.mpr ?_
      intro a ha
      obtain ⟨m, _, rfl⟩ := List.mem_map.mp ha
      simp
    have hdec := countP_set_true_false (fun c : Node μ => decide (c.visits = 0))
      ((G.legalMoves (h.read tr)).map
        (fun m => Node.node (some m) (0 : ℚ) 0 ([] : List (Node μ))))
      (rng k % ((G.legalMoves (h.read tr)).map
        (fun m => Node.node (some m) (0 : ℚ) 0 ([] : List (Node μ)))).length)
      (Node.node (((G.legalMoves (h.read tr)).map
          (fun m => Node.node (some m) (0 : ℚ) 0 ([] : List (Node μ)))).getD
          (rng k % ((G.legalMoves (h.read tr)).map
            (fun m => Node.node (some m) (0 : ℚ) 0 ([] : List (Node μ)))).length)
          default).move
        ((((G.legalMoves (h.read tr)).map
          (fun m => Node.node (some m) (0 : ℚ) 0 ([] : List (Node μ)))).getD
          (rng k % ((G.legalMoves (h.read tr)).map
            (fun m => Node.node (some m) (0 : ℚ) 0 ([] : List (Node μ)))).length)
          default).wins + backpropDelta G ((simulateH G rng sd
            (G.pushRef h tr ((((G.legalMoves (h.read tr)).map
              (fun m => Node.node (some m) (0 : ℚ) 0 ([] : List (Node μ)))).getD
              (rng k % ((G.legalMoves (h.read tr)).map
                (fun m => Node.node (some m) (0 : ℚ) 0 ([] : List (Node μ)))).length)
              default).move.getD default)) tr (k + 1)).1.read tr))
        ((((G.legalMoves (h.read tr)).map
          (fun m => Node.node (some m) (0 : ℚ) 0 ([] : List (Node μ)))).getD
          (rng k % ((G.legalMoves (h.read tr)).map
            (fun m => Node.node (some m) (0 : ℚ) 0 ([] : List (Node μ)))).length)
          default).visits + 1)
        (((G.legalMoves (h.read tr)).map
          (fun m => Node.node (some m) (0 : ℚ) 0 ([] : List (Node μ)))).getD
          (rng k % ((G.legalMoves (h.read tr)).map
            (fun m => Node.node (some m) (0 : ℚ) 0 ([] : List (Node μ)))).length)
          default).children)
      hj (by simp [List.get_eq_getElem, List.getElem_map]) (by simp)
    rw [hfull] at hdec
    omega

/-- C10: for every non-terminal root state with `L` legal moves and any
iteration budget `N ≥ L`, after the search returns every direct child
of the root has been visited at least once: an unvisited child carries
infinite selection priority, so iteration 1 expands the root (visiting
one child) and each following iteration descends into an unvisited root
child while one remains; hence the per-child average `wins/visits` of
every ranked root move is well defined (no division by zero). -/
theorem C10_every_root_child_visited (G : Game σ μ) [Inhabited μ] (h : Heap σ)
    (r N sd : ℕ) (rng : ℕ → ℕ)
    (hgo : G.isGameOver (h.read r) = false)
    (hN : (G.legalMoves (h.read r)).length ≤ N) :
    ∀ c ∈ (mcts G h r rng N sd).1.children, 1 ≤ c.visits := by
  have hLpos : 0 < (G.legalMoves (h.read r)).length :=
    List.length_pos.mpr (G.legal_nonempty _ hgo)
  obtain ⟨M, rfl⟩ : ∃ M, N = M + 1 := by
    cases N with
    | zero => omega
    | succ M => exact ⟨M, rfl⟩
  show ∀ c ∈ (mctsAuxH G r sd rng (M + 1) (Node.node none 0 0 []) h 0).1.children,
    1 ≤ c.visits
  rw [mctsAuxH]
  have hgo1 : G.isGameOver ((h.copy r).1.read (h.copy r).2) = false := by
    rw [Heap.read_copy_new]
    exact hgo
  have hexp := iterStep_root_expansion G sd rng (h.copy r).1 (h.copy r).2 0 hgo1
  have hwf0 : WfT (Node.node (none : Option μ) (0 : ℚ) 0 ([] : List (Node μ))) :=
    WfT.mk _ _ _ _ (fun _ => rfl) (fun c hc => absurd hc (List.not_mem_nil c))
  have hwf1 := iterStep_wf G sd rng (Node.node none 0 0 [])
    (h.copy r).1 (h.copy r).2 0 hwf0
  have hne1 : (iterStep G sd rng (Node.node none 0 0 [])
      (h.copy r).1 (h.copy r).2 0).1.children ≠ [] := by
    intro heq
    have hlen := congrArg List.length heq
    rw [hexp.1, Heap.read_copy_new] at hlen
    simp only [List.length_nil] at hlen
    omega
  have hfin := mctsAuxH_uc G r sd rng M
    (iterStep G sd rng (Node.node none 0 0 []) (h.copy r).1 (h.copy r).2 0).1
    (iterStep G sd rng (Node.node none 0 0 []) (h.copy r).1 (h.copy r).2 0).2.2.1
    (iterStep G sd rng (Node.node none 0 0 []) (h.copy r).1 (h.copy r).2 0).2.2.2
    hwf1 hne1
  have hLcopy : (G.legalMoves ((h.copy r).1.read (h.copy r).2)).length
      = (G.legalMoves (h.read r)).length := by
    rw [Heap.read_copy_new]
  rw [hexp.2] at hfin
  rw [hLcopy] at hfin
  intro c hc
  by_contra hlt
  have hc0 : c.visits = 0 := by omega
  have hpos : 0 < uc (mctsAuxH G r sd rng M
      (iterStep G sd rng (Node.node none 0 0 []) (h.copy r).1 (h.copy r).2 0).1
      (iterStep G sd rng (Node.node none 0 0 []) (h.copy r).1 (h.copy r).2 0).2.2.1
      (iterStep G sd rng (Node.node none 0 0 []) (h.copy r).1 (h.copy r).2 0).2.2.2).1 := by
    simp only [uc]
    refine List.countP_pos_iff.mpr ⟨c, hc, by simp [hc0]⟩
  omega

theorem C10_every_root_child_visited_witness :
    demoGame.isGameOver ((demoHeap 2).read 0) = false ∧
    (demoGame.legalMoves ((demoHeap 2).read 0)).length ≤ 2 ∧
    ∀ c ∈ (mcts demoGame (demoHeap 2) 0 (fun _ => 0) 2 20).1.children, 1 ≤ c.visits :=
  ⟨by decide, by decide,
    C10_every_root_child_visited demoGame (demoHeap 2) 0 2 20 (fun _ => 0)
      (by decide) (by decide)⟩

end ChessMCTS
